import Mathlib

/-!
Verification of the header-detection and key-based reconciliation core of the
production-data uploader (`App.py`).

The embedding models spreadsheet cells as `Option String` (`none` is the
missing / NaN cell), grids as lists of rows, and follows the Python source
function by function:

* `normalize_text`  — `App.py` lines 55-61
* `find_header_row` — `App.py` lines 63-76
* `findColLoop` / `resolveColumns` — the column-resolution step of
  `extract_production_data`, `App.py` lines 122-136
* `walkStep` / `processFull` / `process_and_match` — `App.py` lines 145-220

Strings are treated as ASCII (the model of Python `str.lower` and of the
regex `[\W_]+` is restricted to the ASCII ranges).
-/

/-- A spreadsheet cell: `none` models a missing value (pandas NaN). -/
abbrev Cell := Option String

/-- A raw grid as read from a file: a list of rows of cells (possibly ragged;
pandas pads short rows with NaN on the right, which the accessors below model
with a `none` default). -/
abbrev Grid := List (List Cell)

/-- Python `str(cell)` as applied by `astype(str)`: NaN prints as `"nan"`. -/
def cellStr : Cell → String
  | none => "nan"
  | some s => s

/-- `listPre needle hay`: the first list is a prefix of the second. -/
def listPre : List Char → List Char → Bool
  | [], _ => true
  | _ :: _, [] => false
  | a :: as, b :: bs => a == b && listPre as bs

/-- `hasSub hay needle`: `needle` occurs as a contiguous sublist of `hay`
(Python `needle in hay` on strings; the empty needle always occurs). -/
def hasSub : List Char → List Char → Bool
  | [], n => n.isEmpty
  | h :: t, n => listPre n (h :: t) || hasSub t n

/-- Python `needle in hay` for strings. -/
def strContains (hay needle : String) : Bool :=
  hasSub hay.toList needle.toList

/-- ASCII lower-casing of one character (model of Python `str.lower`). -/
def lowerChar (c : Char) : Char :=
  if 65 ≤ c.toNat ∧ c.toNat ≤ 90 then Char.ofNat (c.toNat + 32) else c

/-- ASCII lower-casing of a string. -/
def lowerStr (s : String) : String :=
  String.mk (s.toList.map lowerChar)

/-- The characters kept by `re.sub(r'[\W_]+', '', ·)`: ASCII word characters
other than the underscore, i.e. `[A-Za-z0-9]`. -/
def isWordKeep (c : Char) : Bool :=
  decide ((65 ≤ c.toNat ∧ c.toNat ≤ 90) ∨ (97 ≤ c.toNat ∧ c.toNat ≤ 122) ∨
    (48 ≤ c.toNat ∧ c.toNat ≤ 57))

/-- `normalize_text` (`App.py` 55-61): missing or empty input gives `""`;
otherwise stringify, lowercase, and drop the characters `re.sub(r'[\W_]+','',·)`
removes. -/
def normalize_text (text : Option String) : String :=
  match text with
  | none => ""
  | some s => if s = "" then "" else String.mk ((s.toList.map lowerChar).filter isWordKeep)

/-- `normalize_text` applied to a value that is already a Python `str`
(as in `normalize_text(str(cell))` call sites). -/
def normalize_str (s : String) : String :=
  normalize_text (some s)

/-- The characters of the class `[a-z0-9]` (the spec's wording for what the
normalizer keeps). -/
def isLowerAlnum (c : Char) : Bool :=
  decide ((97 ≤ c.toNat ∧ c.toNat ≤ 122) ∨ (48 ≤ c.toNat ∧ c.toNat ≤ 57))

/-- Modelled from the spec's wording of the Key Normalizer: missing input maps
to the empty string, any other input is stringified, lowercased, and every
character outside `[a-z0-9]` is removed. Used as the comparison point for the
refinement claim about `normalize_text`. -/
def normalizeSpec : Option String → String
  | none => ""
  | some s => String.mk ((s.toList.map lowerChar).filter isLowerAlnum)

/-- Number of columns of a grid as pandas sees it: the maximum row length
(shorter rows are NaN-padded on read). -/
def numCols (g : Grid) : Nat :=
  g.foldr (fun r a => max r.length a) 0

/-- Cell access `df.iloc[r, i]` with NaN padding for ragged rows. -/
def rowAt (g : Grid) (r i : Nat) : Cell :=
  (g.getD r []).getD i none

/-- Row `r` of the grid materialized at the full column count (NaN-padded). -/
def paddedRow (g : Grid) (r : Nat) : List Cell :=
  (List.range (numCols g)).map (rowAt g r)

/-- Does one lowercased stringified cell of the row contain `t`? (the
`row.str.contains(term, regex=False).any()` test of `find_header_row`). -/
def rowHasTerm (row : List Cell) (t : String) : Bool :=
  row.any (fun c => strContains (lowerStr (cellStr c)) t)

/-- The score of one candidate row in `find_header_row`:
`sum(1 for term in key_terms if row.str.contains(term).any())`. -/
def rowScore (terms : List String) (row : List Cell) : Nat :=
  terms.countP (rowHasTerm row)

/-- The accumulator loop of `find_header_row` over row indices `0..n-1`:
state is `(best_idx, max_matches)`, updated only on a strictly greater score. -/
def fhrScan (score : Nat → Nat) : Nat → Option Nat × Nat
  | 0 => (none, 0)
  | n + 1 =>
    let acc := fhrScan score n
    if score n > acc.2 then (some n, score n) else acc

/-- `find_header_row` (`App.py` 63-76): scan the first 20 rows, track the row
with the strictly greatest score, return it only if the best score is ≥ 2. -/
def find_header_row (g : Grid) (key_terms : List String) : Option Nat :=
  let r := fhrScan (fun i => rowScore key_terms (paddedRow g i)) (min 20 g.length)
  if r.2 ≥ 2 then r.1 else none

/-- The score the spec describes: the number of *distinct* vocabulary terms
occurring as a substring of at least one lowercased cell of row `i`. -/
def dScore (g : Grid) (terms : List String) (i : Nat) : Nat :=
  (terms.dedup.filter (rowHasTerm (paddedRow g i))).length

/-- The `target_columns` table of `extract_production_data` (`App.py` 88-98),
in declaration order: the well-name field followed by the eight parameter
fields, each with its synonym substrings. -/
def target_columns : List (String × List String) :=
  [("well_name", ["well no", "well name", "well", "name"]),
   ("whfp", ["whfp", "tubing pressure", "whp", "thp"]),
   ("choke", ["choke", "/64", "bean"]),
   ("flp", ["flp", "flowline", "line press"]),
   ("prod_time", ["prod. time", "hours", "on stream", "runtime", "duration", "time"]),
   ("gas", ["raw gas", "gas rate", "mmscfd", "gas"]),
   ("condensate", ["raw cond", "condensate", "bbl/d", "cond", "oil"]),
   ("water", ["raw water", "water rate", "wc", "water"]),
   ("salinity", ["salinity", "ppm", "salt"])]

/-- The inner loop of the column-resolution step (`App.py` 124-128): scan the
synthesized column names in order and keep the first one containing any of the
field's synonym substrings. -/
def findColLoop (synonyms : List String) : List String → Option String
  | [] => none
  | col :: rest =>
    if synonyms.any (fun syn => strContains col syn) then some col
    else findColLoop synonyms rest

/-- The column-resolution step (`App.py` 122-136): every field of
`target_columns`, in declaration order, paired with the column it binds
(`none` when absent). -/
def resolveColumns (cols : List String) : List (String × Option String) :=
  target_columns.map (fun kv => (kv.1, findColLoop kv.2 cols))

/-- The eight recognized measurement kinds (the source-table columns besides
the well name and key). -/
inductive PField
  | whfp | choke | flp | gas | condensate | water | prod_time | salinity
deriving DecidableEq, Repr

/-- One row of the extracted source table: the canonical well key and the
eight optional parameter values (a `none` value models an absent / NaN cell,
the `pd.notna` test of `App.py` 213). -/
structure SourceRow where
  well_key : String
  whfp : Option String := none
  choke : Option String := none
  flp : Option String := none
  gas : Option String := none
  condensate : Option String := none
  water : Option String := none
  prod_time : Option String := none
  salinity : Option String := none
deriving DecidableEq, Repr

/-- `match.iloc[0][source_col]`: read one field of a source row. -/
def SourceRow.get (r : SourceRow) : PField → Option String
  | .whfp => r.whfp
  | .choke => r.choke
  | .flp => r.flp
  | .gas => r.gas
  | .condensate => r.condensate
  | .water => r.water
  | .prod_time => r.prod_time
  | .salinity => r.salinity

/-- The fixed `if/elif` chain mapping a normalized parameter-row key to a
source field (`App.py` 199-207), in the source's exact order. -/
def mapParamKey (k : String) : Option PField :=
  if strContains k "whfp" then some .whfp
  else if strContains k "choke" then some .choke
  else if strContains k "flp" then some .flp
  else if strContains k "gas" then some .gas
  else if strContains k "cond" then some .condensate
  else if strContains k "water" then some .water
  else if strContains k "time" || strContains k "hours" || strContains k "duration" then
    some .prod_time
  else if strContains k "salin" then some .salinity
  else none

/-- Python `str.strip()` (ASCII whitespace model): drop leading and trailing
whitespace characters. -/
def pyStrip (s : String) : String :=
  String.mk (((s.toList.dropWhile Char.isWhitespace).reverse.dropWhile
    Char.isWhitespace).reverse)

/-- The test of `App.py` 189 on the stringified well-row cell:
`val and val.lower() != 'nan' and val.strip() != ''`. -/
def isActiveLabel (s : String) : Bool :=
  !(s == "") && !(lowerStr s == "nan") && !(pyStrip s == "")

/-- The state threaded through the column walk of `process_and_match`
(`App.py` 180-215). `trace` and `lookups` are proof instrumentation only:
`trace` records, for every processed (non-date) column, the current well key
right after the cursor update, and `lookups` records every key actually used
in a source-table lookup. Neither influences `row`, `cur`, `matched` or
`dbg`. -/
structure WalkState where
  row : List Cell
  cur : Option String
  matched : List String
  dbg : List String
  trace : List (Nat × Option String)
  lookups : List String
deriving DecidableEq, Repr

/-- First phase of one walk iteration (`App.py` 188-191): if the stringified
well-row cell at column `i` is an active label, it becomes the current well
and its label/key pair is appended to the diagnostics list. -/
def updateCur (w : Nat → Cell) (i : Nat) (st : WalkState) : WalkState :=
  let val := cellStr (w i)
  if isActiveLabel val then
    { st with cur := some (normalize_str val),
              dbg := st.dbg ++ [val ++ " -> " ++ normalize_str val] }
  else st

/-- Proof instrumentation: record the cursor value right after the update of
column `i` (no counterpart in the source; it changes no other field). -/
def recordTrace (i : Nat) (st : WalkState) : WalkState :=
  { st with trace := st.trace ++ [(i, st.cur)] }

/-- Second phase of one walk iteration (`App.py` 193-215): with an active
non-empty current key, resolve the parameter-row cell to a source field,
look the key up in the source table, and on a present value write it into the
new row at column `i` and record the key as matched. -/
def tryWrite (source : List SourceRow) (pr : Nat → Cell) (i : Nat)
    (st : WalkState) : WalkState :=
  match st.cur with
  | none => st
  | some k =>
    if k = "" then st
    else
      let param_key := normalize_str (cellStr (pr i))
      match mapParamKey param_key with
      | none => st
      | some fld =>
        let st2 := { st with lookups := st.lookups ++ [k] }
        match source.find? (fun r => r.well_key == k) with
        | none => st2
        | some r =>
          match r.get fld with
          | none => st2
          | some v =>
            { st2 with
              row := st2.row.set i (some v),
              matched := if k ∈ st2.matched then st2.matched else st2.matched ++ [k] }

/-- One iteration of the column walk (`App.py` 185-215) at column `i`: the
date column is skipped outright (`continue`) before the cursor update. -/
def walkStep (source : List SourceRow) (w pr : Nat → Cell) (dIdx : Nat)
    (st : WalkState) (i : Nat) : WalkState :=
  if i = dIdx then st
  else tryWrite source pr i (recordTrace i (updateCur w i st))

/-- The well-name row (`df_tmpl.iloc[param_row_idx - 1]`) as a column map. -/
def wellRowAt (tmpl : Grid) (p i : Nat) : Cell := rowAt tmpl (p - 1) i

/-- The parameter row (`df_tmpl.iloc[param_row_idx]`) as a column map. -/
def paramRowAt (tmpl : Grid) (p i : Nat) : Cell := rowAt tmpl p i

/-- Does the parameter-row cell of column `i` contain "date"
case-insensitively? (`App.py` 175). -/
def hasDateB (tmpl : Grid) (p i : Nat) : Bool :=
  strContains (lowerStr (cellStr (paramRowAt tmpl p i))) "date"

/-- The first index in `[k, k+m)` satisfying `q` (the `for ... break` loop
shape of `App.py` 174-177). -/
def findFirstFrom (q : Nat → Bool) (k : Nat) : Nat → Option Nat
  | 0 => none
  | m + 1 => if q k then some k else findFirstFrom q (k + 1) m

/-- The date-column scan (`App.py` 173-177): the first parameter-row cell
containing "date", defaulting to column 0. -/
def dateColOf (tmpl : Grid) (p : Nat) : Nat :=
  (findFirstFrom (hasDateB tmpl p) 0 (numCols tmpl)).getD 0

/-- The fresh output row before the column walk (`App.py` 170-178):
all-empty except the report date at the date column. -/
def initState (n0 dIdx : Nat) (date : String) : WalkState :=
  { row := (List.replicate n0 (none : Cell)).set dIdx (some date),
    cur := none, matched := [], dbg := [], trace := [], lookups := [] }

/-- The column walk run over columns `0..m-1`. -/
def walkN (source : List SourceRow) (w pr : Nat → Cell) (dIdx n0 : Nat)
    (date : String) (m : Nat) : WalkState :=
  (List.range m).foldl (walkStep source w pr dIdx) (initState n0 dIdx date)

/-- `process_and_match` (`App.py` 145-220) up to the final grid assembly,
keeping the whole walk state (with its instrumentation), the date-column
index and the parameter-row index. The Python `well_row_idx < 0` test is the
`p = 0` test here (`well_row_idx = param_row_idx - 1`). -/
def processFull (tmpl : Grid) (source : List SourceRow) (date : String) :
    Except String (WalkState × Nat × Nat) :=
  match find_header_row tmpl ["whfp", "gas rate", "choke", "flp", "condensate"] with
  | none => .error "Could not find parameter row (WHFP, Gas Rate) in Master Sheet."
  | some p =>
    if p = 0 then .error "Found parameters on Row 1, but expected Well Names above it."
    else
      .ok (walkN source (wellRowAt tmpl p) (paramRowAt tmpl p) (dateColOf tmpl p)
            (numCols tmpl) date (numCols tmpl),
           dateColOf tmpl p, p)

/-- `process_and_match`'s observable result: the master grid with the new row
appended, the matched-key list and the diagnostics list, or the error
message. -/
def process_and_match (tmpl : Grid) (source : List SourceRow) (date : String) :
    Except String (Grid × List String × List String) :=
  match processFull tmpl source date with
  | .error e => .error e
  | .ok (st, _, _) => .ok (tmpl ++ [st.row], st.matched, st.dbg)

/-- Is column `i` a non-empty well-name cell? -/
def activeAt (w : Nat → Cell) (i : Nat) : Bool :=
  isActiveLabel (cellStr (w i))

/-- The current-well cursor the walk holds after processing columns
`0..m-1`: the normalized nearest active well-name cell to the left, the date
column being skipped before the cursor update. -/
def effCur (w : Nat → Cell) (dIdx : Nat) : Nat → Option String
  | 0 => none
  | m + 1 =>
    if m = dIdx then effCur w dIdx m
    else if activeAt w m then some (normalize_str (cellStr (w m)))
    else effCur w dIdx m

/-- The non-date columns among `0..m-1` whose well-name cell is active. -/
def discCols (w : Nat → Cell) (dIdx m : Nat) : List Nat :=
  (List.range m).filter (fun i => i != dIdx && activeAt w i)

/-- The diagnostics list the walk builds (`App.py` 191), described
declaratively. -/
def dbgSpecL (w : Nat → Cell) (dIdx m : Nat) : List String :=
  (discCols w dIdx m).map
    (fun i => cellStr (w i) ++ " -> " ++ normalize_str (cellStr (w i)))

/-- The instrumentation trace described declaratively: every non-date column
paired with the cursor value `effCur` right after its update. -/
def traceSpecL (w : Nat → Cell) (dIdx m : Nat) : List (Nat × Option String) :=
  ((List.range m).filter (fun i => i != dIdx)).map (fun i => (i, effCur w dIdx (i + 1)))

/-- The well labels discovered during the column walk of a master grid with
parameter row `p`. -/
def discoveredWells (tmpl : Grid) (p : Nat) : List String :=
  (discCols (wellRowAt tmpl p) (dateColOf tmpl p) (numCols tmpl)).map
    (fun i => cellStr (wellRowAt tmpl p i))

/-! ### Helper lemmas about characters and the normalizer -/

theorem toNat_ofNat_lt (n : Nat) (h : n < 55296) : (Char.ofNat n).toNat = n := by
  have hv : n.isValidChar := Or.inl h
  simp [Char.ofNat, hv, Char.ofNatAux, Char.toNat, UInt32.toNat, UInt32.ofNatCore]

theorem lowerChar_not_upper (c : Char) :
    ¬ (65 ≤ (lowerChar c).toNat ∧ (lowerChar c).toNat ≤ 90) := by
  unfold lowerChar
  by_cases h : 65 ≤ c.toNat ∧ c.toNat ≤ 90
  · rw [if_pos h, toNat_ofNat_lt _ (by omega)]
    omega
  · rw [if_neg h]
    exact h

theorem lowerChar_fix (c : Char) (h : ¬ (65 ≤ c.toNat ∧ c.toNat ≤ 90)) :
    lowerChar c = c := by
  simp [lowerChar, h]

theorem lowerChar_idem (c : Char) : lowerChar (lowerChar c) = lowerChar c :=
  lowerChar_fix _ (lowerChar_not_upper c)

theorem isWordKeep_lowerChar (c : Char) :
    isWordKeep (lowerChar c) = isLowerAlnum (lowerChar c) := by
  have h := lowerChar_not_upper c
  simp only [isWordKeep, isLowerAlnum, decide_eq_decide]
  omega

theorem normCore_idem (l : List Char) :
    ((((l.map lowerChar).filter isWordKeep).map lowerChar).filter isWordKeep) =
      (l.map lowerChar).filter isWordKeep := by
  have hmap : ((l.map lowerChar).filter isWordKeep).map lowerChar =
      (l.map lowerChar).filter isWordKeep := by
    apply List.map_congr_left ?_ |>.trans (List.map_id _)
    intro c hc
    have hm : c ∈ l.map lowerChar := List.mem_of_mem_filter hc
    obtain ⟨d, _, rfl⟩ := List.mem_map.mp hm
    exact lowerChar_idem d
  rw [hmap]
  apply List.filter_eq_self.mpr
  intro a ha
  exact List.of_mem_filter ha

theorem mk_eq_empty_iff (l : List Char) : String.mk l = "" ↔ l = [] := by
  constructor
  · intro h
    have : (String.mk l).data = ("" : String).data := by rw [h]
    simpa using this
  · intro h
    simp [h]

theorem normalize_some (s : String) :
    normalize_text (some s) =
      if s = "" then "" else String.mk ((s.toList.map lowerChar).filter isWordKeep) := rfl

/-- C4: the Key Normalizer maps every missing or empty input to the empty
string (never a null — the return type is `String`), and on every other input
it agrees with the spec-side algorithm `normalizeSpec`: stringify, lowercase,
and remove every character outside `[a-z0-9]`. -/
theorem spec_C4 :
    (normalize_text none = "" ∧ normalize_text (some "") = "") ∧
    ∀ t : Option String, normalize_text t = normalizeSpec t := by
  refine ⟨⟨rfl, rfl⟩, ?_⟩
  intro t
  match t with
  | none => rfl
  | some s =>
    by_cases hs : s = ""
    · subst hs
      rfl
    · rw [normalize_some, if_neg hs]
      show String.mk _ = String.mk _
      congr 1
      apply List.filter_congr
      intro c hc
      obtain ⟨d, _, rfl⟩ := List.mem_map.mp hc
      exact isWordKeep_lowerChar d

/-- C5: the Key Normalizer is idempotent — for every string `x`,
`normalize (normalize x) = normalize x`. -/
theorem spec_C5 (x : String) :
    normalize_str (normalize_str x) = normalize_str x := by
  unfold normalize_str
  by_cases hx : x = ""
  · subst hx
    rfl
  · rw [normalize_some x, if_neg hx, normalize_some]
    by_cases hF : String.mk ((x.toList.map lowerChar).filter isWordKeep) = ""
    · rw [if_pos hF]
      exact hF.symm
    · rw [if_neg hF]
      show String.mk _ = String.mk _
      congr 1
      exact normCore_idem x.toList

/-- First-match characterization of the inner column-resolution loop: a field
binds column `c` exactly when `c` appears at some position whose name contains
one of the field's synonyms while every earlier column matches no synonym. -/
theorem findColLoop_eq_some_iff (syns : List String) (cols : List String) (c : String) :
    findColLoop syns cols = some c ↔
      ∃ i, cols[i]? = some c ∧ (syns.any fun syn => strContains c syn) = true ∧
        ∀ x ∈ cols.take i, (syns.any fun syn => strContains x syn) = false := by
  induction cols with
  | nil =>
    simp [findColLoop]
  | cons col rest ih =>
    by_cases h : (syns.any fun syn => strContains col syn) = true
    · rw [findColLoop, if_pos h]
      constructor
      · intro hc
        obtain rfl : col = c := by injection hc
        exact ⟨0, by simp, h, by intro x hx; simp at hx⟩
      · rintro ⟨i, hget, hc, hpre⟩
        match i with
        | 0 =>
          obtain rfl : col = c := by simpa using hget
          rfl
        | j + 1 =>
          exact absurd h (by simpa using (hpre col (by simp)))
    · rw [findColLoop, if_neg h]
      rw [ih]
      constructor
      · rintro ⟨j, hget, hc, hpre⟩
        refine ⟨j + 1, by simpa using hget, hc, ?_⟩
        intro x hx
        rw [List.take_succ_cons] at hx
        rcases List.mem_cons.mp hx with rfl | hx2
        · simpa using h
        · exact hpre x hx2
      · rintro ⟨i, hget, hc, hpre⟩
        match i with
        | 0 =>
          obtain rfl : col = c := by simpa using hget
          exact absurd hc h
        | j + 1 =>
          refine ⟨j, by simpa using hget, hc, ?_⟩
          intro x hx
          exact hpre x (by rw [List.take_succ_cons]; exact List.mem_cons_of_mem _ hx)

/-- C1 counterexample: the column-resolution step binds the single synthesized
column "gas condensate" to *two* parameter fields at once — `gas` (earlier in
declaration order) and `condensate` (later) both bind it, so a column is not
bound to at most one field and the later field does not have to bind a
different column or be absent. -/
theorem spec_C1_cex :
    (resolveColumns ["gas condensate"]).lookup "gas" = some (some "gas condensate") ∧
    (resolveColumns ["gas condensate"]).lookup "condensate" = some (some "gas condensate") := by
  decide

/-- C1 (amended): fields are iterated in `target_columns` declaration order
and each field binds, independently of every other field, to the first column
whose name contains one of its synonym substrings (or is absent when no column
matches); distinct fields may therefore bind the same column. -/
theorem spec_C1_amended (cols : List String) (key : String) (syns : List String)
    (h : (key, syns) ∈ target_columns) (c : String) :
    ((key, findColLoop syns cols) ∈ resolveColumns cols) ∧
    (findColLoop syns cols = some c ↔
      ∃ i, cols[i]? = some c ∧ (syns.any fun syn => strContains c syn) = true ∧
        ∀ x ∈ cols.take i, (syns.any fun syn => strContains x syn) = false) :=
  ⟨List.mem_map.mpr ⟨(key, syns), h, rfl⟩, findColLoop_eq_some_iff syns cols c⟩

/-- C1 witness: the amended theorem applied to the `gas` field and the single
column "daily gas". -/
theorem spec_C1_w :
    (("gas", ["raw gas", "gas rate", "mmscfd", "gas"]) ∈ target_columns) ∧
    (("gas", findColLoop ["raw gas", "gas rate", "mmscfd", "gas"] ["daily gas"]) ∈
      resolveColumns ["daily gas"]) ∧
    findColLoop ["raw gas", "gas rate", "mmscfd", "gas"] ["daily gas"] = some "daily gas" :=
  ⟨by decide,
   (spec_C1_amended ["daily gas"] "gas" ["raw gas", "gas rate", "mmscfd", "gas"]
     (by decide) "daily gas").1,
   (spec_C1_amended ["daily gas"] "gas" ["raw gas", "gas rate", "mmscfd", "gas"]
     (by decide) "daily gas").2.mpr ⟨0, rfl, by decide, by intro x hx; simp at hx⟩⟩

example : normalize_text (some "EW-05") = "ew05" := by decide
example : normalize_text (some "Well #5") = "well5" := by decide
example : normalize_text none = "" := by decide
example : normalize_text (some "###") = "" := by decide
example : strContains "gas condensate" "cond" = true := by decide
example : strContains "abc" "" = true := by decide
example : strContains "abc" "ac" = false := by decide

theorem fhrScan_succ (score : Nat → Nat) (n : Nat) :
    fhrScan score (n + 1) =
      if score n > (fhrScan score n).2 then (some n, score n) else fhrScan score n := rfl

/-- The accumulator of `find_header_row` after scanning `n` rows: the kept
score bounds every row score seen, and the kept index (when present) is the
earliest row attaining that score. -/
theorem fhrScan_inv (score : Nat → Nat) (n : Nat) :
    (∀ i < n, score i ≤ (fhrScan score n).2) ∧
    (((fhrScan score n).1 = none ∧ (fhrScan score n).2 = 0) ∨
      ∃ i, (fhrScan score n).1 = some i ∧ i < n ∧ score i = (fhrScan score n).2 ∧
        ∀ j < i, score j < (fhrScan score n).2) := by
  induction n with
  | zero =>
    exact ⟨by omega, Or.inl ⟨rfl, rfl⟩⟩
  | succ n ih =>
    obtain ⟨hub, hbest⟩ := ih
    rw [fhrScan_succ]
    by_cases h : score n > (fhrScan score n).2
    · rw [if_pos h]
      constructor
      · intro i hi
        rcases Nat.lt_succ_iff_lt_or_eq.mp hi with hi2 | rfl
        · exact le_of_lt (lt_of_le_of_lt (hub i hi2) h)
        · exact le_refl _
      · refine Or.inr ⟨n, rfl, Nat.lt_succ_self n, rfl, ?_⟩
        intro j hj
        exact lt_of_le_of_lt (hub j hj) h
    · rw [if_neg h]
      constructor
      · intro i hi
        rcases Nat.lt_succ_iff_lt_or_eq.mp hi with hi2 | rfl
        · exact hub i hi2
        · omega
      · rcases hbest with hl | ⟨i, h1, h2, h3, h4⟩
        · exact Or.inl hl
        · exact Or.inr ⟨i, h1, Nat.lt_succ_of_lt h2, h3, h4⟩

/-- C3: for every grid and duplicate-free vocabulary (a vocabulary is a set
of distinct terms), the Structural Locator examines only the first 20 rows;
a row's score is the number of distinct vocabulary terms occurring as a
substring of at least one lowercased cell of that row; a returned index is
within the scanned window, is the earliest row achieving the maximum score
over the window, and is returned only with score at least 2; when it signals
not-found, every scanned row scores below 2. -/
theorem spec_C3 (g : Grid) (terms : List String) (hnd : terms.Nodup) :
    (∀ i, find_header_row g terms = some i →
       i < min 20 g.length ∧ 2 ≤ dScore g terms i ∧
       (∀ j < min 20 g.length, dScore g terms j ≤ dScore g terms i) ∧
       (∀ j < i, dScore g terms j < dScore g terms i)) ∧
    (find_header_row g terms = none → ∀ i < min 20 g.length, dScore g terms i < 2) := by
  have hsc : ∀ i, dScore g terms i = rowScore terms (paddedRow g i) := by
    intro i
    rw [dScore, rowScore, hnd.dedup, List.countP_eq_length_filter]
  obtain ⟨hub, hbest⟩ := fhrScan_inv (fun i => rowScore terms (paddedRow g i)) (min 20 g.length)
  constructor
  · intro i hi
    rw [find_header_row] at hi
    by_cases h2 : (fhrScan (fun i => rowScore terms (paddedRow g i)) (min 20 g.length)).2 ≥ 2
    · rw [if_pos h2] at hi
      rcases hbest with ⟨hl, hz⟩ | ⟨i2, h1, hlt, hs, hmax⟩
      · rw [hi] at hl
        cases hl
      · rw [hi] at h1
        injection h1 with h1
        subst h1
        refine ⟨hlt, ?_, ?_, ?_⟩
        · rw [hsc, hs]
          exact h2
        · intro j hj
          rw [hsc, hsc, hs]
          exact hub j hj
        · intro j hj
          rw [hsc, hsc, hs]
          exact hmax j hj
    · rw [if_neg h2] at hi
      cases hi
  · intro hn i hi
    rw [find_header_row] at hn
    by_cases h2 : (fhrScan (fun i => rowScore terms (paddedRow g i)) (min 20 g.length)).2 ≥ 2
    · rw [if_pos h2] at hn
      rcases hbest with ⟨hl, hz⟩ | ⟨i2, h1, hlt, hs, hmax⟩
      · omega
      · rw [hn] at h1
        cases h1
    · rw [if_neg h2] at hn
      rw [hsc]
      exact lt_of_le_of_lt (hub i hi) (by omega)

/-- C3 witness: the locator applied to a concrete two-row grid. -/
theorem spec_C3_w :
    (["whfp", "gas rate", "choke", "flp", "condensate"] : List String).Nodup ∧
    find_header_row [[none, some "EW-1"], [some "Date", some "WHFP gas rate"]]
      ["whfp", "gas rate", "choke", "flp", "condensate"] = some 1 ∧
    1 < min 20 2 ∧
    2 ≤ dScore [[none, some "EW-1"], [some "Date", some "WHFP gas rate"]]
      ["whfp", "gas rate", "choke", "flp", "condensate"] 1 := by
  refine ⟨by decide, by decide, ?_⟩
  have h := (spec_C3 [[none, some "EW-1"], [some "Date", some "WHFP gas rate"]]
    ["whfp", "gas rate", "choke", "flp", "condensate"] (by decide)).1 1 (by decide)
  exact ⟨h.1, h.2.1⟩

/-! ### Per-phase lemmas for the column walk -/

/-- `updateCur` touches only the cursor and the diagnostics list, in the way
the spec-side `activeAt` test describes. -/
theorem updateCur_fields (w : Nat → Cell) (i : Nat) (st : WalkState) :
    (updateCur w i st).row = st.row ∧
    (updateCur w i st).matched = st.matched ∧
    (updateCur w i st).trace = st.trace ∧
    (updateCur w i st).lookups = st.lookups ∧
    (updateCur w i st).cur =
      (if activeAt w i then some (normalize_str (cellStr (w i))) else st.cur) ∧
    (updateCur w i st).dbg = st.dbg ++
      (if activeAt w i then [cellStr (w i) ++ " -> " ++ normalize_str (cellStr (w i))]
        else []) := by
  unfold updateCur activeAt
  by_cases h : isActiveLabel (cellStr (w i)) = true
  · simp [h]
  · simp [h]

/-- `recordTrace` only appends one entry to the trace. -/
theorem recordTrace_fields (i : Nat) (st : WalkState) :
    (recordTrace i st).row = st.row ∧
    (recordTrace i st).matched = st.matched ∧
    (recordTrace i st).cur = st.cur ∧
    (recordTrace i st).lookups = st.lookups ∧
    (recordTrace i st).dbg = st.dbg ∧
    (recordTrace i st).trace = st.trace ++ [(i, st.cur)] :=
  ⟨rfl, rfl, rfl, rfl, rfl, rfl⟩

/-- What `tryWrite` can do: it never touches cursor, diagnostics or trace,
preserves the row length, performs a lookup only on the non-empty current
key, records a key as matched only when a source row with that key exists,
and writes only at column `i`, only a present field value of the source row
found for the non-empty current key. -/
theorem tryWrite_spec (source : List SourceRow) (pr : Nat → Cell) (i : Nat) (st : WalkState) :
    (tryWrite source pr i st).cur = st.cur ∧
    (tryWrite source pr i st).dbg = st.dbg ∧
    (tryWrite source pr i st).trace = st.trace ∧
    (tryWrite source pr i st).row.length = st.row.length ∧
    (∀ k, k ∈ (tryWrite source pr i st).lookups → k ∈ st.lookups ∨ (st.cur = some k ∧ k ≠ "")) ∧
    (∀ k, k ∈ (tryWrite source pr i st).matched → k ∈ st.matched ∨
      (st.cur = some k ∧ k ≠ "" ∧ ∃ r, source.find? (fun x => x.well_key == k) = some r)) ∧
    (∀ j, j ≠ i → (tryWrite source pr i st).row.getD j none = st.row.getD j none) ∧
    (∀ v, (tryWrite source pr i st).row.getD i none = some v →
      st.row.getD i none = some v ∨
      ∃ k, st.cur = some k ∧ k ≠ "" ∧
        ∃ r, source.find? (fun x => x.well_key == k) = some r ∧ ∃ fld, r.get fld = some v) := by
  cases hcur : st.cur with
  | none =>
    have heq : tryWrite source pr i st = st := by
      simp only [tryWrite, hcur]
    rw [heq]
    exact ⟨hcur, rfl, rfl, rfl, fun x hx => Or.inl hx, fun x hx => Or.inl hx,
      fun j _ => rfl, fun v hv => Or.inl hv⟩
  | some k =>
    by_cases hk : k = ""
    · have heq : tryWrite source pr i st = st := by
        simp only [tryWrite, hcur]
        rw [if_pos hk]
      rw [heq]
      exact ⟨hcur, rfl, rfl, rfl,
        fun x hx => Or.inl hx, fun x hx => Or.inl hx, fun j _ => rfl, fun v hv => Or.inl hv⟩
    · cases hmp : mapParamKey (normalize_str (cellStr (pr i))) with
      | none =>
        have heq : tryWrite source pr i st = st := by
          simp only [tryWrite, hcur]
          rw [if_neg hk]
          simp only [hmp]
        rw [heq]
        exact ⟨hcur, rfl, rfl, rfl,
          fun x hx => Or.inl hx, fun x hx => Or.inl hx, fun j _ => rfl, fun v hv => Or.inl hv⟩
      | some fld =>
        have hlk : ∀ x, x ∈ st.lookups ++ [k] →
            x ∈ st.lookups ∨ ((some k : Option String) = some x ∧ x ≠ "") := by
          intro x hx
          rcases List.mem_append.mp hx with h1 | h1
          · exact Or.inl h1
          · obtain rfl : x = k := by simpa using h1
            exact Or.inr ⟨rfl, hk⟩
        cases hf : source.find? (fun r => r.well_key == k) with
        | none =>
          have heq : tryWrite source pr i st = { st with lookups := st.lookups ++ [k] } := by
            simp only [tryWrite, hcur]
            rw [if_neg hk]
            simp only [hmp, hf]
          rw [heq]
          exact ⟨hcur, rfl, rfl, rfl, hlk, fun x hx => Or.inl hx, fun j _ => rfl,
            fun v hv => Or.inl hv⟩
        | some r =>
          cases hv : r.get fld with
          | none =>
            have heq : tryWrite source pr i st = { st with lookups := st.lookups ++ [k] } := by
              simp only [tryWrite, hcur]
              rw [if_neg hk]
              simp only [hmp, hf, hv]
            rw [heq]
            exact ⟨hcur, rfl, rfl, rfl, hlk, fun x hx => Or.inl hx, fun j _ => rfl,
              fun v hv => Or.inl hv⟩
          | some v =>
            have heq : tryWrite source pr i st =
                { st with lookups := st.lookups ++ [k],
                          row := st.row.set i (some v),
                          matched := if k ∈ st.matched then st.matched
                            else st.matched ++ [k] } := by
              simp only [tryWrite, hcur]
              rw [if_neg hk]
              simp only [hmp, hf, hv]
            rw [heq]
            refine ⟨hcur, rfl, rfl, by simp, hlk, ?_, ?_, ?_⟩
            · intro x hx
              by_cases hmem : k ∈ st.matched
              · rw [if_pos hmem] at hx
                exact Or.inl hx
              · rw [if_neg hmem] at hx
                rcases List.mem_append.mp hx with h1 | h1
                · exact Or.inl h1
                · obtain rfl : x = k := by simpa using h1
                  exact Or.inr ⟨rfl, hk, r, hf⟩
            · intro j hj
              show (st.row.set i (some v)).getD j none = st.row.getD j none
              simp [List.getD_eq_getElem?_getD, List.getElem?_set_ne (Ne.symm hj)]
            · intro v2 hv2
              by_cases hi : i < st.row.length
              · right
                refine ⟨k, rfl, hk, r, hf, fld, ?_⟩
                have heq2 : (st.row.set i (some v)).getD i none = some v := by
                  simp [List.getD_eq_getElem?_getD, List.getElem?_set_self hi]
                have h3 : some v = some v2 := heq2.symm.trans hv2
                injection h3 with h
                rw [← h]
                exact hv
              · left
                have hset : st.row.set i (some v) = st.row :=
                  List.set_eq_of_length_le (by omega)
                show st.row.getD i none = some v2
                rw [← hset]
                exact hv2

/-! ### The walk invariant -/

theorem walkN_zero (source : List SourceRow) (w pr : Nat → Cell) (dIdx n0 : Nat)
    (date : String) : walkN source w pr dIdx n0 date 0 = initState n0 dIdx date := rfl

/-- Unfolding one column of the walk. -/
theorem walkN_succ (source : List SourceRow) (w pr : Nat → Cell) (dIdx n0 : Nat)
    (date : String) (m : Nat) :
    walkN source w pr dIdx n0 date (m + 1) =
      walkStep source w pr dIdx (walkN source w pr dIdx n0 date m) m := by
  rw [walkN, walkN, List.range_succ, List.foldl_append]
  rfl

/-- Unfolding the spec-side cursor by one column. -/
theorem effCur_succ (w : Nat → Cell) (dIdx m : Nat) :
    effCur w dIdx (m + 1) =
      if m = dIdx then effCur w dIdx m
      else if activeAt w m then some (normalize_str (cellStr (w m)))
      else effCur w dIdx m := rfl

/-- Unfolding the discovered-column list by one column. -/
theorem discCols_succ (w : Nat → Cell) (dIdx m : Nat) :
    discCols w dIdx (m + 1) =
      discCols w dIdx m ++ (if (m != dIdx && activeAt w m) = true then [m] else []) := by
  rw [discCols, discCols, List.range_succ, List.filter_append]
  congr 1
  by_cases h : (m != dIdx && activeAt w m) = true
  · simp [List.filter, h]
  · simp [List.filter, h]

/-- Unfolding the declarative diagnostics list by one column. -/
theorem dbgSpecL_succ (w : Nat → Cell) (dIdx m : Nat) :
    dbgSpecL w dIdx (m + 1) =
      dbgSpecL w dIdx m ++ (if (m != dIdx && activeAt w m) = true
        then [cellStr (w m) ++ " -> " ++ normalize_str (cellStr (w m))] else []) := by
  rw [dbgSpecL, dbgSpecL, discCols_succ, List.map_append]
  congr 1
  by_cases h : (m != dIdx && activeAt w m) = true
  · simp [h]
  · simp [h]

/-- Unfolding the declarative trace by one column. -/
theorem traceSpecL_succ (w : Nat → Cell) (dIdx m : Nat) :
    traceSpecL w dIdx (m + 1) =
      traceSpecL w dIdx m ++ (if (m != dIdx) = true
        then [(m, effCur w dIdx (m + 1))] else []) := by
  rw [traceSpecL, traceSpecL, List.range_succ, List.filter_append, List.map_append]
  congr 1
  by_cases h : (m != dIdx) = true
  · simp [List.filter, h]
  · simp [List.filter, h]

/-- A non-`none` cursor always comes from an active non-date column. -/
theorem effCur_mem (w : Nat → Cell) (dIdx : Nat) (m : Nat) (k : String)
    (h : effCur w dIdx m = some k) :
    ∃ i, i < m ∧ i ≠ dIdx ∧ activeAt w i = true ∧
      k = normalize_str (cellStr (w i)) := by
  induction m with
  | zero => cases h
  | succ m ih =>
    rw [effCur_succ] at h
    by_cases hmd : m = dIdx
    · rw [if_pos hmd] at h
      obtain ⟨i, h1, h2, h3, h4⟩ := ih h
      exact ⟨i, Nat.lt_succ_of_lt h1, h2, h3, h4⟩
    · rw [if_neg hmd] at h
      by_cases ha : activeAt w m = true
      · rw [if_pos ha] at h
        injection h with h
        exact ⟨m, Nat.lt_succ_self m, hmd, ha, h.symm⟩
      · rw [if_neg ha] at h
        obtain ⟨i, h1, h2, h3, h4⟩ := ih h
        exact ⟨i, Nat.lt_succ_of_lt h1, h2, h3, h4⟩

/-- A replicated empty row reads `none` everywhere. -/
theorem getD_replicate_none (n0 i : Nat) :
    (List.replicate n0 (none : Cell)).getD i none = none := by
  simp [List.getD_eq_getElem?_getD]

/-- The fresh output row reads the date at the date column (when in range)
and `none` everywhere else. -/
theorem initState_row_getD (n0 dIdx : Nat) (date : String) (i : Nat) :
    (initState n0 dIdx date).row.getD i none =
      if i = dIdx ∧ dIdx < n0 then some date else none := by
  show ((List.replicate n0 (none : Cell)).set dIdx (some date)).getD i none = _
  by_cases hi : i = dIdx
  · subst hi
    by_cases hd : i < n0
    · rw [if_pos ⟨rfl, hd⟩]
      simp [List.getD_eq_getElem?_getD,
        List.getElem?_set_self (by simpa using hd : i < (List.replicate n0 (none : Cell)).length)]
    · rw [if_neg (by tauto)]
      rw [List.set_eq_of_length_le (by simpa using Nat.le_of_not_lt hd)]
      exact getD_replicate_none n0 i
  · rw [if_neg (by tauto)]
    rw [List.getD_eq_getElem?_getD, List.getElem?_set_ne (Ne.symm hi)]
    rw [← List.getD_eq_getElem?_getD]
    exact getD_replicate_none n0 i

/-- The walk invariant after `m` columns: the row keeps the master column
count; cursor, diagnostics and trace equal their declarative descriptions;
every key used in a lookup is non-empty; every matched key is a non-empty
normalized active well label with a source row carrying it; the date cell
holds the date; and every other written cell holds a present field value of
the source row found for the non-empty cursor key at that column. -/
theorem walkN_inv (source : List SourceRow) (w pr : Nat → Cell) (dIdx n0 : Nat)
    (date : String) (m : Nat) :
    (walkN source w pr dIdx n0 date m).row.length = n0 ∧
    (walkN source w pr dIdx n0 date m).cur = effCur w dIdx m ∧
    (walkN source w pr dIdx n0 date m).dbg = dbgSpecL w dIdx m ∧
    (walkN source w pr dIdx n0 date m).trace = traceSpecL w dIdx m ∧
    (∀ k ∈ (walkN source w pr dIdx n0 date m).lookups, k ≠ "") ∧
    (∀ k ∈ (walkN source w pr dIdx n0 date m).matched, k ≠ "" ∧
      (∃ i, i < m ∧ i ≠ dIdx ∧ activeAt w i = true ∧ k = normalize_str (cellStr (w i))) ∧
      ∃ r, source.find? (fun x => x.well_key == k) = some r) ∧
    (dIdx < n0 → (walkN source w pr dIdx n0 date m).row.getD dIdx none = some date) ∧
    (∀ i v, (walkN source w pr dIdx n0 date m).row.getD i none = some v →
      (i = dIdx ∧ v = date) ∨
      (i ≠ dIdx ∧ ∃ k, effCur w dIdx (i + 1) = some k ∧ k ≠ "" ∧
        ∃ r, source.find? (fun x => x.well_key == k) = some r ∧
          ∃ fld, r.get fld = some v)) := by
  induction m with
  | zero =>
    rw [walkN_zero]
    refine ⟨by simp [initState], rfl, rfl, rfl, ?_, ?_, ?_, ?_⟩
    · intro k hk
      simp [initState] at hk
    · intro k hk
      simp [initState] at hk
    · intro hd
      rw [initState_row_getD]
      rw [if_pos ⟨rfl, hd⟩]
    · intro i v hv
      rw [initState_row_getD] at hv
      by_cases hc : i = dIdx ∧ dIdx < n0
      · rw [if_pos hc] at hv
        injection hv with hv
        exact Or.inl ⟨hc.1, hv.symm⟩
      · rw [if_neg hc] at hv
        cases hv
  | succ m ih =>
    obtain ⟨ihLen, ihCur, ihDbg, ihTrace, ihLk, ihM, ihDate, ihRow⟩ := ih
    rw [walkN_succ]
    by_cases hmd : m = dIdx
    · rw [walkStep, if_pos hmd]
      have hbne : (m != dIdx) = false := by simp [hmd]
      refine ⟨ihLen, ?_, ?_, ?_, ihLk, ?_, ihDate, ihRow⟩
      · rw [ihCur, effCur_succ, if_pos hmd]
      · rw [ihDbg, dbgSpecL_succ]
        simp [hbne]
      · rw [ihTrace, traceSpecL_succ]
        simp [hbne]
      · intro k hk
        obtain ⟨h1, ⟨i, hi1, hi2, hi3, hi4⟩, h3⟩ := ihM k hk
        exact ⟨h1, ⟨i, Nat.lt_succ_of_lt hi1, hi2, hi3, hi4⟩, h3⟩
    · rw [walkStep, if_neg hmd]
      set st := walkN source w pr dIdx n0 date m with hst
      obtain ⟨uRow, uM, uTr, uLk, uCur, uDbg⟩ := updateCur_fields w m st
      obtain ⟨tRow, tM, tCur, tLk, tDbg, tTr⟩ := recordTrace_fields m (updateCur w m st)
      obtain ⟨wCur, wDbg, wTr, wLen, wLk, wM, wRowNe, wRowEq⟩ :=
        tryWrite_spec source pr m (recordTrace m (updateCur w m st))
      have hcurNew : (recordTrace m (updateCur w m st)).cur = effCur w dIdx (m + 1) := by
        rw [tCur, uCur, ihCur, effCur_succ, if_neg hmd]
      have hbne : (m != dIdx) = true := by simp [hmd]
      refine ⟨?_, ?_, ?_, ?_, ?_, ?_, ?_, ?_⟩
      · rw [wLen, tRow, uRow, ihLen]
      · rw [wCur, hcurNew]
      · rw [wDbg, tDbg, uDbg, ihDbg, dbgSpecL_succ]
        by_cases ha : activeAt w m = true
        · simp [hbne, ha]
        · simp [hbne, ha]
      · rw [wTr, tTr, uTr, ihTrace, traceSpecL_succ, if_pos hbne, uCur, ihCur]
        congr 2
        rw [effCur_succ, if_neg hmd]
      · intro k hk
        rcases wLk k hk with h1 | ⟨_, h2⟩
        · rw [tLk, uLk] at h1
          exact ihLk k h1
        · exact h2
      · intro k hk
        rcases wM k hk with h1 | ⟨hc, hne, hr⟩
        · rw [tM, uM] at h1
          obtain ⟨g1, ⟨i, hi1, hi2, hi3, hi4⟩, g3⟩ := ihM k h1
          exact ⟨g1, ⟨i, Nat.lt_succ_of_lt hi1, hi2, hi3, hi4⟩, g3⟩
        · rw [hcurNew] at hc
          obtain ⟨i, hi1, hi2, hi3, hi4⟩ := effCur_mem w dIdx (m + 1) k hc
          exact ⟨hne, ⟨i, hi1, hi2, hi3, hi4⟩, hr⟩
      · intro hd
        rw [wRowNe dIdx (by omega), tRow, uRow]
        exact ihDate hd
      · intro i v hv
        by_cases him : i = m
        · subst him
          rcases wRowEq v hv with hOld | ⟨k, hc, hne, r, hr, fld, hfld⟩
          · rw [tRow, uRow] at hOld
            rcases ihRow i v hOld with ⟨h1, h2⟩ | h
            · exact absurd h1 hmd
            · exact Or.inr h
          · rw [hcurNew] at hc
            exact Or.inr ⟨hmd, k, hc, hne, r, hr, fld, hfld⟩
        · rw [wRowNe i him, tRow, uRow] at hv
          exact ihRow i v hv

/-! ### Deriving the reconciliation claims -/

/-- A successful first-index scan returns the least index in the window
satisfying `q`. -/
theorem findFirstFrom_some (q : Nat → Bool) (m : Nat) :
    ∀ k i, findFirstFrom q k m = some i →
      k ≤ i ∧ i < k + m ∧ q i = true ∧ ∀ j, k ≤ j → j < i → q j = false := by
  induction m with
  | zero =>
    intro k i h
    cases h
  | succ m ih =>
    intro k i h
    rw [findFirstFrom] at h
    by_cases hq : q k = true
    · rw [if_pos hq] at h
      injection h with h
      subst h
      exact ⟨le_refl _, by omega, hq, fun j h1 h2 => absurd (lt_of_le_of_lt h1 h2) (lt_irrefl _)⟩
    · rw [if_neg hq] at h
      obtain ⟨h1, h2, h3, h4⟩ := ih (k + 1) i h
      refine ⟨by omega, by omega, h3, ?_⟩
      intro j hj1 hj2
      by_cases hjk : j = k
      · subst hjk
        simpa using hq
      · exact h4 j (by omega) hj2

/-- A failed first-index scan means no index in the window satisfies `q`. -/
theorem findFirstFrom_none (q : Nat → Bool) (m : Nat) :
    ∀ k, findFirstFrom q k m = none → ∀ j, k ≤ j → j < k + m → q j = false := by
  induction m with
  | zero =>
    intro k _ j h1 h2
    omega
  | succ m ih =>
    intro k h j h1 h2
    rw [findFirstFrom] at h
    by_cases hq : q k = true
    · rw [if_pos hq] at h
      cases h
    · rw [if_neg hq] at h
      by_cases hjk : j = k
      · subst hjk
        simpa using hq
      · exact ih (k + 1) h j (by omega) (by omega)

/-- A located header/parameter row forces at least one column: a score of 2
needs a term matching some cell of the padded row. -/
theorem find_header_row_pos (g : Grid) (ts : List String) (p : Nat)
    (h : find_header_row g ts = some p) : 0 < numCols g := by
  rw [find_header_row] at h
  by_cases h2 : (fhrScan (fun i => rowScore ts (paddedRow g i)) (min 20 g.length)).2 ≥ 2
  · obtain ⟨hub, hbest⟩ := fhrScan_inv (fun i => rowScore ts (paddedRow g i)) (min 20 g.length)
    rcases hbest with ⟨_, hz⟩ | ⟨i, _, _, hs, _⟩
    · omega
    · have hge : 0 < rowScore ts (paddedRow g i) := by omega
      rw [rowScore] at hge
      obtain ⟨t, _, ht⟩ := List.countP_pos_iff.mp hge
      rw [rowHasTerm] at ht
      obtain ⟨c, hc, _⟩ := List.any_eq_true.mp ht
      have : 0 < (paddedRow g i).length := List.length_pos.mpr (List.ne_nil_of_mem hc)
      simpa [paddedRow] using this
  · rw [if_neg h2] at h
    cases h

/-- The date column is always within the column count (when there are
columns at all). -/
theorem dateColOf_lt (tmpl : Grid) (p : Nat) (h : 0 < numCols tmpl) :
    dateColOf tmpl p < numCols tmpl := by
  rw [dateColOf]
  cases hf : findFirstFrom (hasDateB tmpl p) 0 (numCols tmpl) with
  | none => simpa using h
  | some i =>
    obtain ⟨_, hi, _, _⟩ := findFirstFrom_some (hasDateB tmpl p) (numCols tmpl) 0 i hf
    simpa using hi

/-- A successful reconciliation run decomposes into: the parameter row was
located at a non-zero index, the date column is the scanned one, and the
result state is the full column walk. -/
theorem processFull_ok_elim (tmpl : Grid) (source : List SourceRow) (date : String)
    (st : WalkState) (dIdx p : Nat)
    (h : processFull tmpl source date = .ok (st, dIdx, p)) :
    find_header_row tmpl ["whfp", "gas rate", "choke", "flp", "condensate"] = some p ∧
    p ≠ 0 ∧ dIdx = dateColOf tmpl p ∧
    st = walkN source (wellRowAt tmpl p) (paramRowAt tmpl p) (dateColOf tmpl p)
      (numCols tmpl) date (numCols tmpl) := by
  unfold processFull at h
  cases hf : find_header_row tmpl ["whfp", "gas rate", "choke", "flp", "condensate"] with
  | none =>
    rw [hf] at h
    cases h
  | some q =>
    simp only [hf] at h
    by_cases hq : q = 0
    · rw [if_pos hq] at h
      cases h
    · rw [if_neg hq] at h
      injection h with h
      injection h with h1 h
      injection h with h2 h3
      subst h3
      exact ⟨rfl, hq, h2.symm, h1.symm⟩

/-- Reading a present cell implies the index is in range. -/
theorem getD_some_lt (l : List Cell) (i : Nat) (v : String)
    (h : l.getD i none = some v) : i < l.length := by
  by_contra hc
  rw [List.getD_eq_getElem?_getD, List.getElem?_eq_none (by omega)] at h
  cases h

/-- C6: when the detected parameter row is row index 0, `process_and_match`
fails with the structural-layout error (there is no room for a well-name row
above) and returns no updated grid. -/
theorem spec_C6 (tmpl : Grid) (source : List SourceRow) (date : String)
    (h : find_header_row tmpl ["whfp", "gas rate", "choke", "flp", "condensate"] = some 0) :
    process_and_match tmpl source date =
      .error "Found parameters on Row 1, but expected Well Names above it." := by
  rw [process_and_match, processFull]
  simp only [h]
  rfl

/-- C6 witness: a one-row master sheet whose only row is the parameter row. -/
theorem spec_C6_w :
    find_header_row [[some "whfp", some "gas rate"]]
      ["whfp", "gas rate", "choke", "flp", "condensate"] = some 0 ∧
    process_and_match [[some "whfp", some "gas rate"]] [] "2025-01-01" =
      .error "Found parameters on Row 1, but expected Well Names above it." :=
  ⟨by decide, spec_C6 [[some "whfp", some "gas rate"]] [] "2025-01-01" (by decide)⟩

/-- C2: on every successful run, every key used in a source-table lookup is a
non-empty string, every matched key is non-empty (so two cells normalizing to
the empty key can never produce a match), and a column whose current key is
empty (`none` or `""`) is skipped — nothing is written at it. -/
theorem spec_C2 (tmpl : Grid) (source : List SourceRow) (date : String)
    (st : WalkState) (dIdx p : Nat)
    (h : processFull tmpl source date = .ok (st, dIdx, p)) :
    (∀ k ∈ st.lookups, k ≠ "") ∧
    (∀ k ∈ st.matched, k ≠ "") ∧
    (∀ i ks, (i, ks) ∈ st.trace → (ks = none ∨ ks = some "") →
      st.row.getD i none = none) := by
  obtain ⟨hf, hp, hd, hst⟩ := processFull_ok_elim tmpl source date st dIdx p h
  subst hst
  subst hd
  obtain ⟨hLen, hCur, hDbg, hTrace, hLk, hM, hDate, hRow⟩ :=
    walkN_inv source (wellRowAt tmpl p) (paramRowAt tmpl p) (dateColOf tmpl p)
      (numCols tmpl) date (numCols tmpl)
  refine ⟨hLk, fun k hk => (hM k hk).1, ?_⟩
  intro i ks htr hemp
  rw [hTrace, traceSpecL] at htr
  obtain ⟨j, hj1, hj2⟩ := List.mem_map.mp htr
  obtain ⟨hji, hks⟩ := Prod.ext_iff.mp hj2
  subst hji
  subst hks
  cases hrow : (walkN source (wellRowAt tmpl p) (paramRowAt tmpl p) (dateColOf tmpl p)
      (numCols tmpl) date (numCols tmpl)).row.getD j none with
  | none => rfl
  | some v =>
    exfalso
    rcases hRow j v hrow with ⟨hid, _⟩ | ⟨hid, k, hck, hkne, _⟩
    · obtain ⟨_, hj3⟩ := List.mem_filter.mp hj1
      rw [hid] at hj3
      simp at hj3
    · have he2 : effCur (wellRowAt tmpl p) (dateColOf tmpl p) (j + 1) = none ∨
          effCur (wellRowAt tmpl p) (dateColOf tmpl p) (j + 1) = some "" := hemp
      rcases he2 with he | he
      · rw [he] at hck
        cases hck
      · rw [he] at hck
        injection hck with hck
        exact hkne hck.symm

/-- C7: on every successful run the output grid is the input master grid with
exactly one row appended (pre-existing rows are untouched), the new row has
the master column count, and every non-date cell that is not `none` holds a
present field value of some source row — unresolved cells stay empty, never
defaulted. -/
theorem spec_C7 (tmpl : Grid) (source : List SourceRow) (date : String)
    (g : Grid) (matched dbg : List String)
    (h : process_and_match tmpl source date = .ok (g, matched, dbg)) :
    ∃ st dIdx p, processFull tmpl source date = .ok (st, dIdx, p) ∧
      g = tmpl ++ [st.row] ∧
      st.row.length = numCols tmpl ∧
      ∀ i v, st.row.getD i none = some v →
        (i = dIdx ∧ v = date) ∨
        (i ≠ dIdx ∧ ∃ r ∈ source, ∃ fld, r.get fld = some v) := by
  rw [process_and_match] at h
  cases hpf : processFull tmpl source date with
  | error e =>
    rw [hpf] at h
    cases h
  | ok t =>
    obtain ⟨st, dIdx, p⟩ := t
    simp only [hpf] at h
    injection h with h
    injection h with h1 h
    injection h with h2 h3
    obtain ⟨hf, hp, hd, hst⟩ := processFull_ok_elim tmpl source date st dIdx p hpf
    refine ⟨st, dIdx, p, rfl, h1.symm, ?_, ?_⟩
    · rw [hst]
      exact (walkN_inv source (wellRowAt tmpl p) (paramRowAt tmpl p) (dateColOf tmpl p)
        (numCols tmpl) date (numCols tmpl)).1
    · intro i v hv
      have hRow := (walkN_inv source (wellRowAt tmpl p) (paramRowAt tmpl p) (dateColOf tmpl p)
        (numCols tmpl) date (numCols tmpl)).2.2.2.2.2.2.2
      rw [hst] at hv
      rcases hRow i v hv with ⟨hi1, hi2⟩ | ⟨hi1, k, _, _, r, hr, fld, hfld⟩
      · rw [hd]
        exact Or.inl ⟨hi1, hi2⟩
      · rw [hd]
        exact Or.inr ⟨hi1, r, List.mem_of_find?_eq_some hr, fld, hfld⟩

/-- C8: a run with zero matches is not an error — when the parameter row is
located at a positive index and no source key equals the normalized key of
any well label discovered in the master grid, the engine still succeeds,
returns the grid with the date written and every other new-row cell empty,
an empty matched set, and no error value. -/
theorem spec_C8 (tmpl : Grid) (source : List SourceRow) (date : String) (p : Nat)
    (hf : find_header_row tmpl ["whfp", "gas rate", "choke", "flp", "condensate"] = some p)
    (hp : 0 < p)
    (hnm : ∀ lab ∈ discoveredWells tmpl p, ∀ r ∈ source, r.well_key ≠ normalize_str lab) :
    ∃ st dIdx, processFull tmpl source date = .ok (st, dIdx, p) ∧
      st.matched = [] ∧
      process_and_match tmpl source date = .ok (tmpl ++ [st.row], [], st.dbg) ∧
      st.row.getD dIdx none = some date ∧
      ∀ i, i ≠ dIdx → st.row.getD i none = none := by
  have hn0 : 0 < numCols tmpl := find_header_row_pos tmpl _ p hf
  have hdlt : dateColOf tmpl p < numCols tmpl := dateColOf_lt tmpl p hn0
  have hpf : processFull tmpl source date =
      .ok (walkN source (wellRowAt tmpl p) (paramRowAt tmpl p) (dateColOf tmpl p)
        (numCols tmpl) date (numCols tmpl), dateColOf tmpl p, p) := by
    rw [processFull]
    simp only [hf]
    rw [if_neg (by omega)]
  obtain ⟨hLen, hCur, hDbg, hTrace, hLk, hM, hDate, hRow⟩ :=
    walkN_inv source (wellRowAt tmpl p) (paramRowAt tmpl p) (dateColOf tmpl p)
      (numCols tmpl) date (numCols tmpl)
  have hkey : ∀ k, (∃ i, i < numCols tmpl ∧ i ≠ dateColOf tmpl p ∧
      activeAt (wellRowAt tmpl p) i = true ∧ k = normalize_str (cellStr (wellRowAt tmpl p i))) →
      (∃ r, source.find? (fun x => x.well_key == k) = some r) → False := by
    rintro k ⟨i, hi1, hi2, hi3, hi4⟩ ⟨r, hr⟩
    have hlab : cellStr (wellRowAt tmpl p i) ∈ discoveredWells tmpl p := by
      rw [discoveredWells]
      refine List.mem_map.mpr ⟨i, ?_, rfl⟩
      rw [discCols]
      refine List.mem_filter.mpr ⟨List.mem_range.mpr hi1, ?_⟩
      simp [hi2, hi3]
    have hmem : r ∈ source := List.mem_of_find?_eq_some hr
    have hkeq : r.well_key = k := by
      have := List.find?_some hr
      simpa using this
    exact hnm _ hlab r hmem (by rw [hkeq, hi4])
  have hmatched : (walkN source (wellRowAt tmpl p) (paramRowAt tmpl p) (dateColOf tmpl p)
      (numCols tmpl) date (numCols tmpl)).matched = [] := by
    rw [List.eq_nil_iff_forall_not_mem]
    intro k hk
    obtain ⟨_, hex, hr⟩ := hM k hk
    exact hkey k hex hr
  refine ⟨_, dateColOf tmpl p, hpf, hmatched, ?_, hDate hdlt, ?_⟩
  · rw [process_and_match, hpf]
    simp only [hmatched]
  · intro i hi
    cases hrow : (walkN source (wellRowAt tmpl p) (paramRowAt tmpl p) (dateColOf tmpl p)
        (numCols tmpl) date (numCols tmpl)).row.getD i none with
    | none => rfl
    | some v =>
      exfalso
      rcases hRow i v hrow with ⟨hi1, _⟩ | ⟨_, k, hck, _, r, hr, _⟩
      · exact hi hi1
      · have hilt : i < numCols tmpl := by
          have := getD_some_lt _ i v hrow
          omega
        obtain ⟨j, hj1, hj2, hj3, hj4⟩ := effCur_mem _ _ (i + 1) k hck
        exact hkey k ⟨j, by omega, hj2, hj3, hj4⟩ ⟨r, hr⟩

/-- C9: the report date is placed at the first column whose parameter-row
cell contains "date" case-insensitively, and at column 0 when no
parameter-row cell contains "date". -/
theorem spec_C9 (tmpl : Grid) (source : List SourceRow) (date : String)
    (st : WalkState) (dIdx p : Nat)
    (h : processFull tmpl source date = .ok (st, dIdx, p)) :
    st.row.getD dIdx none = some date ∧
    ((hasDateB tmpl p dIdx = true ∧ ∀ j < dIdx, hasDateB tmpl p j = false) ∨
     (dIdx = 0 ∧ ∀ j < numCols tmpl, hasDateB tmpl p j = false)) := by
  obtain ⟨hf, hp, hd, hst⟩ := processFull_ok_elim tmpl source date st dIdx p h
  have hn0 : 0 < numCols tmpl := find_header_row_pos tmpl _ p hf
  have hdlt : dateColOf tmpl p < numCols tmpl := dateColOf_lt tmpl p hn0
  constructor
  · rw [hst, hd]
    exact (walkN_inv source (wellRowAt tmpl p) (paramRowAt tmpl p) (dateColOf tmpl p)
      (numCols tmpl) date (numCols tmpl)).2.2.2.2.2.2.1 hdlt
  · rw [hd, dateColOf]
    cases hff : findFirstFrom (hasDateB tmpl p) 0 (numCols tmpl) with
    | none =>
      refine Or.inr ⟨rfl, ?_⟩
      intro j hj
      exact findFirstFrom_none (hasDateB tmpl p) (numCols tmpl) 0 hff j (Nat.zero_le j)
        (by omega)
    | some i =>
      obtain ⟨_, hi2, hi3, hi4⟩ :=
        findFirstFrom_some (hasDateB tmpl p) (numCols tmpl) 0 i hff
      refine Or.inl ⟨hi3, ?_⟩
      intro j hj
      exact hi4 j (Nat.zero_le j) hj

/-- The cursor after column `i` is exactly the normalized nearest active
well-name cell at or left of `i` that is not the date column, with no
active non-date cell in between. -/
theorem effCur_eq_some_iff (w : Nat → Cell) (dIdx : Nat) (i : Nat) (k : String) :
    effCur w dIdx (i + 1) = some k ↔
      ∃ j, j ≤ i ∧ j ≠ dIdx ∧ activeAt w j = true ∧
        k = normalize_str (cellStr (w j)) ∧
        ∀ j2, j < j2 → j2 ≤ i → j2 = dIdx ∨ activeAt w j2 = false := by
  induction i with
  | zero =>
    rw [effCur_succ]
    by_cases h0 : 0 = dIdx
    · rw [if_pos h0]
      show (none : Option String) = some k ↔ _
      constructor
      · intro h
        cases h
      · rintro ⟨j, hj1, hj2, _, _, _⟩
        obtain rfl : j = 0 := by omega
        exact (hj2 (by omega)).elim
    · rw [if_neg h0]
      by_cases ha : activeAt w 0 = true
      · rw [if_pos ha]
        constructor
        · intro h
          injection h with h
          exact ⟨0, le_refl 0, fun hc => h0 (by omega), ha, h.symm,
            fun j2 h1 h2 => absurd h2 (by omega)⟩
        · rintro ⟨j, hj1, _, _, hj4, _⟩
          obtain rfl : j = 0 := by omega
          rw [hj4]
      · rw [if_neg ha]
        show (none : Option String) = some k ↔ _
        constructor
        · intro h
          cases h
        · rintro ⟨j, hj1, _, hj3, _, _⟩
          obtain rfl : j = 0 := by omega
          exact absurd hj3 ha
  | succ i ih =>
    rw [effCur_succ]
    by_cases hd : i + 1 = dIdx
    · rw [if_pos hd]
      rw [ih]
      constructor
      · rintro ⟨j, hj1, hj2, hj3, hj4, hj5⟩
        refine ⟨j, by omega, hj2, hj3, hj4, ?_⟩
        intro j2 h1 h2
        by_cases hj2i : j2 = i + 1
        · exact Or.inl (hj2i.trans hd)
        · exact hj5 j2 h1 (by omega)
      · rintro ⟨j, hj1, hj2, hj3, hj4, hj5⟩
        have hjne : j ≠ i + 1 := fun hc => hj2 (hc.trans hd)
        refine ⟨j, by omega, hj2, hj3, hj4, ?_⟩
        intro j2 h1 h2
        exact hj5 j2 h1 (by omega)
    · by_cases ha : activeAt w (i + 1) = true
      · rw [if_neg hd, if_pos ha]
        constructor
        · intro h
          injection h with h
          exact ⟨i + 1, le_refl _, hd, ha, h.symm,
            fun j2 h1 h2 => absurd h2 (by omega)⟩
        · rintro ⟨j, hj1, hj2, hj3, hj4, hj5⟩
          by_cases hji : j = i + 1
          · subst hji
            rw [hj4]
          · have hj5i := hj5 (i + 1) (by omega) (le_refl _)
            rcases hj5i with hc | hc
            · exact absurd hc hd
            · rw [ha] at hc
              cases hc
      · rw [if_neg hd, if_neg ha]
        rw [ih]
        constructor
        · rintro ⟨j, hj1, hj2, hj3, hj4, hj5⟩
          refine ⟨j, by omega, hj2, hj3, hj4, ?_⟩
          intro j2 h1 h2
          by_cases hj2i : j2 = i + 1
          · subst hj2i
            exact Or.inr (by simpa using ha)
          · exact hj5 j2 h1 (by omega)
        · rintro ⟨j, hj1, hj2, hj3, hj4, hj5⟩
          have hjne : j ≠ i + 1 := by
            intro hc
            subst hc
            exact ha hj3
          refine ⟨j, by omega, hj2, hj3, hj4, ?_⟩
          intro j2 h1 h2
          exact hj5 j2 h1 (by omega)

/-- C10: the date column is skipped before the cursor update — the
diagnostics list collects exactly the active well labels of non-date columns
(a non-empty well-name cell at the date column is never added), the trace
never contains a date-column entry, and every column's well context is the
nearest active non-date well-name cell to its left. -/
theorem spec_C10 (tmpl : Grid) (source : List SourceRow) (date : String)
    (st : WalkState) (dIdx p : Nat)
    (h : processFull tmpl source date = .ok (st, dIdx, p)) :
    st.dbg = dbgSpecL (wellRowAt tmpl p) dIdx (numCols tmpl) ∧
    st.trace = traceSpecL (wellRowAt tmpl p) dIdx (numCols tmpl) ∧
    (∀ ks, (dIdx, ks) ∉ st.trace) ∧
    (∀ i k, effCur (wellRowAt tmpl p) dIdx (i + 1) = some k ↔
      ∃ j, j ≤ i ∧ j ≠ dIdx ∧ activeAt (wellRowAt tmpl p) j = true ∧
        k = normalize_str (cellStr (wellRowAt tmpl p j)) ∧
        ∀ j2, j < j2 → j2 ≤ i → j2 = dIdx ∨ activeAt (wellRowAt tmpl p) j2 = false) := by
  obtain ⟨hf, hp, hd, hst⟩ := processFull_ok_elim tmpl source date st dIdx p h
  subst hst
  subst hd
  obtain ⟨_, _, hDbg, hTrace, _, _, _, _⟩ :=
    walkN_inv source (wellRowAt tmpl p) (paramRowAt tmpl p) (dateColOf tmpl p)
      (numCols tmpl) date (numCols tmpl)
  refine ⟨hDbg, hTrace, ?_, fun i k => effCur_eq_some_iff (wellRowAt tmpl p) (dateColOf tmpl p) i k⟩
  intro ks hmem
  rw [hTrace, traceSpecL] at hmem
  obtain ⟨j, hj1, hj2⟩ := List.mem_map.mp hmem
  obtain ⟨hji, _⟩ := Prod.ext_iff.mp hj2
  have hji2 : j = dateColOf tmpl p := hji
  obtain ⟨_, hj3⟩ := List.mem_filter.mp hj1
  rw [hji2] at hj3
  simp at hj3

/-- A concrete master grid used by the witnesses: well-name row above a
parameter row with a date column. -/
def masterT : Grid :=
  [[none, some "EW-1", none, some "EW-2"],
   [some "Date", some "WHFP", some "Gas Rate", some "Choke"]]

/-- A concrete source table matching both wells of `masterT`. -/
def sourceT : List SourceRow :=
  [{ well_key := "ew1", whfp := some "250", gas := some "10.5" },
   { well_key := "ew2", choke := some "32" }]

/-- The walk state `processFull masterT sourceT "2025-01-01"` produces. -/
def walkT : WalkState :=
  { row := [some "2025-01-01", some "250", some "10.5", some "32"],
    cur := some "ew2",
    matched := ["ew1", "ew2"],
    dbg := ["EW-1 -> ew1", "EW-2 -> ew2"],
    trace := [(1, some "ew1"), (2, some "ew1"), (3, some "ew2")],
    lookups := ["ew1", "ew1", "ew2"] }

/-- A source table whose only key matches no well of `masterT`. -/
def sourceN : List SourceRow := [{ well_key := "zz" }]

/-- C2 witness: the theorem applied to a concrete successful run. -/
theorem spec_C2_w :
    (∀ k ∈ walkT.lookups, k ≠ "") ∧ (∀ k ∈ walkT.matched, k ≠ "") ∧
    (∀ i ks, (i, ks) ∈ walkT.trace → (ks = none ∨ ks = some "") →
      walkT.row.getD i none = none) :=
  spec_C2 masterT sourceT "2025-01-01" walkT 0 1 (by rfl)

/-- C7 witness: the theorem applied to a concrete successful run. -/
theorem spec_C7_w :
    ∃ st dIdx p, processFull masterT sourceT "2025-01-01" = .ok (st, dIdx, p) ∧
      masterT ++ [walkT.row] = masterT ++ [st.row] ∧
      st.row.length = numCols masterT ∧
      ∀ i v, st.row.getD i none = some v →
        (i = dIdx ∧ v = "2025-01-01") ∨
        (i ≠ dIdx ∧ ∃ r ∈ sourceT, ∃ fld, r.get fld = some v) :=
  spec_C7 masterT sourceT "2025-01-01" (masterT ++ [walkT.row]) walkT.matched walkT.dbg
    (by rfl)

/-- C8 witness: a source table whose only key matches no master well. -/
theorem spec_C8_w :
    ∃ st dIdx, processFull masterT sourceN "2025-01-01" = .ok (st, dIdx, 1) ∧
      st.matched = [] ∧
      process_and_match masterT sourceN "2025-01-01" = .ok (masterT ++ [st.row], [], st.dbg) ∧
      st.row.getD dIdx none = some "2025-01-01" ∧
      ∀ i, i ≠ dIdx → st.row.getD i none = none :=
  spec_C8 masterT sourceN "2025-01-01" 1 (by rfl) (by decide) (by decide)

/-- C9 witness: the theorem applied to a concrete successful run. -/
theorem spec_C9_w :
    walkT.row.getD 0 none = some "2025-01-01" ∧
    ((hasDateB masterT 1 0 = true ∧ ∀ j < 0, hasDateB masterT 1 j = false) ∨
     (0 = 0 ∧ ∀ j < numCols masterT, hasDateB masterT 1 j = false)) :=
  spec_C9 masterT sourceT "2025-01-01" walkT 0 1 (by rfl)

/-- C10 witness: the theorem applied to a concrete successful run. -/
theorem spec_C10_w :
    walkT.dbg = dbgSpecL (wellRowAt masterT 1) 0 (numCols masterT) ∧
    walkT.trace = traceSpecL (wellRowAt masterT 1) 0 (numCols masterT) ∧
    (∀ ks, (0, ks) ∉ walkT.trace) ∧
    (∀ i k, effCur (wellRowAt masterT 1) 0 (i + 1) = some k ↔
      ∃ j, j ≤ i ∧ j ≠ 0 ∧ activeAt (wellRowAt masterT 1) j = true ∧
        k = normalize_str (cellStr (wellRowAt masterT 1 j)) ∧
        ∀ j2, j < j2 → j2 ≤ i → j2 = 0 ∨ activeAt (wellRowAt masterT 1) j2 = false) :=
  spec_C10 masterT sourceT "2025-01-01" walkT 0 1 (by rfl)
